import Mathlib

/-!
Shallow embedding of `packages/esbuild-obfuscator/src/lib/esbuild-obfuscator.ts`.

The source is a single esbuild plugin factory `obfuscatorPlugin(options = {})`
returning a plugin whose `setup` registers an `onEnd` callback.  The callback:
  * returns at once when `result.errors.length` is truthy;
  * logs `'Metafile is required for the obfuscator plugin to work.'` on
    `console.error` and returns when `result.metafile` is absent;
  * otherwise maps over `Object.keys(result.metafile.outputs)` and, for each
    key ending in `'.js'`, resolves it, reads the file, calls the external
    `obfuscate(code, options).getObfuscatedCode()` and writes the result back.

Effects are made explicit: the filesystem is an association list from resolved
paths to textual contents, and every externally visible action (file read,
call of the external transformation, file write, diagnostic on the error
channel) is recorded in an event trace.  `Promise.all` over independent file
tasks is sequentialised in manifest-key order with fail-fast error
propagation; a failure leaves the filesystem produced by the already
completed tasks in place, matching the absence of any rollback in the source.
-/

namespace EsbuildObfuscator

/-- JavaScript `String.prototype.endsWith`: the characters of `suffix` are
exactly the final characters of `s` (case-sensitive). -/
def jsEndsWith (s suffix : String) : Bool :=
  List.isSuffixOf suffix.data s.data

/-- Free-form options object passed to the plugin factory
(`ObfuscatorPluginOptions`).  Every key is opaque to the hook; values are
never inspected and are represented as strings. -/
structure Options where
  entries : List (String × String)
deriving DecidableEq

/-- The `{}` default of the factory's `options` parameter. -/
def Options.empty : Options := ⟨[]⟩

/-- Metadata attached to one output path in the metafile; the hook never
reads it. -/
structure OutputMeta where
  bytes : Nat
deriving DecidableEq

/-- The build's output manifest (`result.metafile`): a mapping from produced
output path to metadata. -/
structure Metafile where
  outputs : List (String × OutputMeta)
deriving DecidableEq

/-- The build outcome handed to the `onEnd` callback (`BuildResult`): a list
of error descriptors and an optional metafile. -/
structure BuildResult where
  errors : List String
  metafile : Option Metafile
deriving DecidableEq

/-- Externally visible actions of one hook invocation, in order. -/
inductive Event where
  | read : String → Event
  | transform : String → Options → Event
  | write : String → String → Event
  | diag : String → Event
deriving DecidableEq

/-- The resolved path a filesystem event touches (`none` for the pure
transformation call and for diagnostics). -/
def Event.touches : Event → Option String
  | Event.read p => some p
  | Event.write p _ => some p
  | _ => none

/-- The filesystem: resolved path ↦ textual content.  Earlier entries shadow
later ones, so update is cons. -/
structure FS where
  files : List (String × String)
deriving DecidableEq

/-- Modelled `fs.readFile(p, 'utf8')`: the content at `p`, or `none` when the
file does not exist (in which case the real call rejects). -/
def FS.read (fs : FS) (p : String) : Option String :=
  fs.files.lookup p

/-- Modelled `fs.writeFile(p, c, 'utf8')`: replaces the content at `p`. -/
def FS.write (fs : FS) (p c : String) : FS :=
  ⟨(p, c) :: fs.files⟩

/-- The ambient external collaborators: `path.resolve` and the
`javascript-obfuscator` transformation `obfuscate(code, options)
.getObfuscatedCode()`, which may also throw (`Except.error`). -/
structure Env where
  resolve : String → String
  transform : String → Options → Except String String

/-- One transformation task for manifest key `outputFile`
(the body of the `outputFiles.map` callback, lines 31–41 of the source):
when the key ends in `'.js'`, resolve it, read the file, transform the
content, write the result back; otherwise do nothing.  A read or
transformation failure is returned as `Except.error` and leaves the
filesystem untouched. -/
def processFile (env : Env) (options : Options) (fs : FS) (outputFile : String) :
    FS × List Event × Except String Unit :=
  if jsEndsWith outputFile ".js" then
    let filePath := env.resolve outputFile
    match FS.read fs filePath with
    | none => (fs, [Event.read filePath], Except.error (String.append "ENOENT: " filePath))
    | some code =>
      match env.transform code options with
      | Except.error e =>
        (fs, [Event.read filePath, Event.transform code options], Except.error e)
      | Except.ok obfuscatedCode =>
        (FS.write fs filePath obfuscatedCode,
         [Event.read filePath, Event.transform code options,
          Event.write filePath obfuscatedCode],
         Except.ok ())
  else
    (fs, [], Except.ok ())

/-- The `await Promise.all(outputFiles.map ...)` fan-out, sequentialised in
manifest-key order with fail-fast propagation of the first failure; the
side effects of tasks completed before the failure persist. -/
def processAll (env : Env) (options : Options) :
    FS → List String → FS × List Event × Except String Unit
  | fs, [] => (fs, [], Except.ok ())
  | fs, f :: rest =>
    match processFile env options fs f with
    | (fs1, evs1, Except.ok ()) =>
      match processAll env options fs1 rest with
      | (fs2, evs2, r2) => (fs2, evs1 ++ evs2, r2)
    | (fs1, evs1, Except.error e) => (fs1, evs1, Except.error e)

/-- The fixed diagnostic text of line 23 of the source. -/
def metafileRequiredMsg : String :=
  "Metafile is required for the obfuscator plugin to work."

/-- The `onEnd` callback (lines 16–43 of the source). -/
def onEndCallback (env : Env) (options : Options) (result : BuildResult) (fs : FS) :
    FS × List Event × Except String Unit :=
  if result.errors.length ≠ 0 then
    (fs, [], Except.ok ())
  else
    match result.metafile with
    | none => (fs, [Event.diag metafileRequiredMsg], Except.ok ())
    | some metafile =>
      let outputFiles : List String := metafile.outputs.map Prod.fst
      processAll env options fs outputFiles

/-- An esbuild plugin as far as this component exercises it: a name and the
registered `onEnd` hook. -/
structure Plugin where
  name : String
  onEnd : BuildResult → FS → FS × List Event × Except String Unit

/-- The plugin factory `obfuscatorPlugin(options)` (lines 10–46). -/
def obfuscatorPlugin (env : Env) (options : Options) : Plugin :=
  ⟨"esbuild-obfuscator", onEndCallback env options⟩

/-- Calling the factory with no argument: the TS default parameter
`options = {}` substitutes the empty object. -/
def obfuscatorPluginNoOpts (env : Env) : Plugin :=
  obfuscatorPlugin env Options.empty

/-- A sequence of builds, each invoking the plugin's hook; the only state
threaded from one invocation to the next is the filesystem. -/
def runBuilds (p : Plugin) : FS → List BuildResult → FS × List (List Event × Except String Unit)
  | fs, [] => (fs, [])
  | fs, r :: rs =>
    match p.onEnd r fs with
    | (fs1, evs, st) =>
      match runBuilds p fs1 rs with
      | (fs2, outs) => (fs2, (evs, st) :: outs)

/-! Concrete build outcomes, filesystems and environments used to exercise
the theorems below on closed inputs. -/

/-- Environment whose transformation returns the input unchanged. -/
def envW : Env :=
  ⟨fun p => String.append "/out/" p, fun code _ => Except.ok code⟩

/-- Environment whose transformation fails on the content "bad" and prefixes
"ob:" otherwise. -/
def envPartialW : Env :=
  ⟨fun p => String.append "/o/" p,
   fun code _ =>
     if code == "bad" then Except.error "boom"
     else Except.ok (String.append "ob:" code)⟩

def optsW : Options := ⟨[("compact", "true")]⟩

def metaW : Metafile := ⟨[("main.js", ⟨9⟩), ("style.css", ⟨7⟩)]⟩

def resultW : BuildResult := ⟨[], some metaW⟩

def fsW : FS := ⟨[("/out/main.js", "alpha"), ("/out/style.css", "bodycss")]⟩

def resultNoMetaW : BuildResult := ⟨[], none⟩

def resultFailedW : BuildResult := ⟨["SyntaxError"], none⟩

def metaTwoW : Metafile := ⟨[("a.js", ⟨1⟩), ("b.js", ⟨2⟩)]⟩

def resultTwoW : BuildResult := ⟨[], some metaTwoW⟩

def fsTwoW : FS := ⟨[("/o/a.js", "good"), ("/o/b.js", "bad")]⟩

def metaEmptyW : Metafile := ⟨[("empty.js", ⟨0⟩)]⟩

def resultEmptyW : BuildResult := ⟨[], some metaEmptyW⟩

def fsEmptyW : FS := ⟨[("/out/empty.js", "")]⟩

def metaSufW : Metafile := ⟨[("a.mjs", ⟨1⟩), ("b.js", ⟨1⟩)]⟩

def resultSufW : BuildResult := ⟨[], some metaSufW⟩

def fsSufW : FS := ⟨[("/out/a.mjs", "modcode"), ("/out/b.js", "code")]⟩

/-! Basic lemmas about the filesystem model. -/

theorem FS.read_write_self (fs : FS) (p c : String) :
    FS.read (FS.write fs p c) p = some c := by
  simp [FS.read, FS.write, List.lookup]

theorem FS.read_write_ne (fs : FS) (p c x : String) (h : x ≠ p) :
    FS.read (FS.write fs p c) x = FS.read fs x := by
  have hb : (x == p) = false := beq_eq_false_iff_ne.mpr h
  simp [FS.read, FS.write, List.lookup, hb]

/-! Case-analysis lemmas for a single transformation task. -/

theorem processFile_not_js (env : Env) (options : Options) (fs : FS) (f : String)
    (h : jsEndsWith f ".js" = false) :
    processFile env options fs f = (fs, [], Except.ok ()) := by
  simp [processFile, h]

theorem processFile_error_fs (env : Env) (options : Options) (fs : FS) (f : String)
    (fs1 : FS) (evs1 : List Event) (e : String)
    (h : processFile env options fs f = (fs1, evs1, Except.error e)) : fs1 = fs := by
  rcases hj : jsEndsWith f ".js" with _ | _
  · rw [processFile_not_js env options fs f hj] at h
    simp only [Prod.mk.injEq] at h
    exact absurd h.2.2 (by simp)
  · rcases hr : FS.read fs (env.resolve f) with _ | code
    · simp only [processFile, hj, if_pos, hr] at h
      simp only [Prod.mk.injEq] at h
      exact h.1.symm
    · rcases ht : env.transform code options with e2 | obf
      · simp only [processFile, hj, if_pos, hr, ht] at h
        simp only [Prod.mk.injEq] at h
        exact h.1.symm
      · simp only [processFile, hj, if_pos, hr, ht] at h
        simp only [Prod.mk.injEq] at h
        exact absurd h.2.2 (by simp)

theorem processFile_ok_js (env : Env) (options : Options) (fs : FS) (f : String)
    (fs1 : FS) (evs1 : List Event)
    (hj : jsEndsWith f ".js" = true)
    (h : processFile env options fs f = (fs1, evs1, Except.ok ())) :
    ∃ code obf,
      FS.read fs (env.resolve f) = some code ∧
      env.transform code options = Except.ok obf ∧
      fs1 = FS.write fs (env.resolve f) obf ∧
      evs1 = [Event.read (env.resolve f), Event.transform code options,
              Event.write (env.resolve f) obf] := by
  rcases hr : FS.read fs (env.resolve f) with _ | code
  · simp only [processFile, hj, if_pos, hr] at h
    simp only [Prod.mk.injEq] at h
    exact absurd h.2.2 (by simp)
  · rcases ht : env.transform code options with e | obf
    · simp only [processFile, hj, if_pos, hr, ht] at h
      simp only [Prod.mk.injEq] at h
      exact absurd h.2.2 (by simp)
    · simp only [processFile, hj, if_pos, hr, ht] at h
      simp only [Prod.mk.injEq] at h
      exact ⟨code, obf, rfl, ht, h.1.symm, h.2.1.symm⟩

/-- The events of one task touch only the resolved path of a `.js` key, carry
only the registration options, and are empty for a non-matching key. -/
theorem processFile_events (env : Env) (options : Options) (fs : FS) (f : String)
    (fs1 : FS) (evs1 : List Event) (r : Except String Unit)
    (h : processFile env options fs f = (fs1, evs1, r)) :
    ∀ e ∈ evs1, jsEndsWith f ".js" = true ∧
      (e = Event.read (env.resolve f) ∨
       (∃ c, e = Event.transform c options) ∨
       (∃ c, e = Event.write (env.resolve f) c)) := by
  intro e he
  rcases hj : jsEndsWith f ".js" with _ | _
  · rw [processFile_not_js env options fs f hj] at h
    simp only [Prod.mk.injEq] at h
    rw [← h.2.1] at he
    simp at he
  · refine ⟨rfl, ?_⟩
    rcases hr : FS.read fs (env.resolve f) with _ | code
    · simp only [processFile, hj, if_pos, hr] at h
      simp only [Prod.mk.injEq] at h
      rw [← h.2.1] at he
      simp only [List.mem_cons, List.not_mem_nil, or_false] at he
      exact Or.inl he
    · rcases ht : env.transform code options with e2 | obf
      · simp only [processFile, hj, if_pos, hr, ht] at h
        simp only [Prod.mk.injEq] at h
        rw [← h.2.1] at he
        simp only [List.mem_cons, List.not_mem_nil, or_false] at he
        rcases he with he | he
        · exact Or.inl he
        · exact Or.inr (Or.inl ⟨code, he⟩)
      · simp only [processFile, hj, if_pos, hr, ht] at h
        simp only [Prod.mk.injEq] at h
        rw [← h.2.1] at he
        simp only [List.mem_cons, List.not_mem_nil, or_false] at he
        rcases he with he | he | he
        · exact Or.inl he
        · exact Or.inr (Or.inl ⟨code, he⟩)
        · exact Or.inr (Or.inr ⟨obf, he⟩)

/-! Unfolding equations for the sequentialised fan-out. -/

theorem processAll_nil (env : Env) (options : Options) (fs : FS) :
    processAll env options fs [] = (fs, [], Except.ok ()) := rfl

theorem processAll_cons_ok (env : Env) (options : Options) (fs : FS) (f : String)
    (rest : List String) (fs1 : FS) (evs1 : List Event)
    (h : processFile env options fs f = (fs1, evs1, Except.ok ())) :
    processAll env options fs (f :: rest) =
      ((processAll env options fs1 rest).1,
       evs1 ++ (processAll env options fs1 rest).2.1,
       (processAll env options fs1 rest).2.2) := by
  rcases h2 : processAll env options fs1 rest with ⟨fs2, evs2, r2⟩
  simp only [processAll, h, h2]

theorem processAll_cons_error (env : Env) (options : Options) (fs : FS) (f : String)
    (rest : List String) (fs1 : FS) (evs1 : List Event) (e : String)
    (h : processFile env options fs f = (fs1, evs1, Except.error e)) :
    processAll env options fs (f :: rest) = (fs1, evs1, Except.error e) := by
  simp only [processAll, h]

/-- Processing a list of manifest keys leaves every path other than the
resolved matching keys with its original content — also when a task fails
midway. -/
theorem processAll_fs_frame (env : Env) (options : Options) (x : String) :
    ∀ (files : List String) (fs : FS),
      (∀ q ∈ files, jsEndsWith q ".js" = true → env.resolve q ≠ x) →
      FS.read (processAll env options fs files).1 x = FS.read fs x := by
  intro files
  induction files with
  | nil => intro fs _; rfl
  | cons f rest ih =>
    intro fs h
    rcases hpf : processFile env options fs f with ⟨fs1, evs1, r⟩
    rcases r with e | u
    · rw [processAll_cons_error env options fs f rest fs1 evs1 e hpf]
      rw [processFile_error_fs env options fs f fs1 evs1 e hpf]
    · rcases u
      rw [processAll_cons_ok env options fs f rest fs1 evs1 hpf]
      have h2 : FS.read (processAll env options fs1 rest).1 x = FS.read fs1 x :=
        ih fs1 (fun q hq hjq => h q (List.mem_cons_of_mem f hq) hjq)
      dsimp only
      rw [h2]
      rcases hj : jsEndsWith f ".js" with _ | _
      · have h3 := (processFile_not_js env options fs f hj).symm.trans hpf
        simp only [Prod.mk.injEq] at h3
        rw [← h3.1]
      · obtain ⟨code, obf, _, _, hfs1, _⟩ :=
          processFile_ok_js env options fs f fs1 evs1 hj hpf
        rw [hfs1]
        exact FS.read_write_ne fs (env.resolve f) obf x
          (Ne.symm (h f (List.mem_cons_self f rest) hj))

/-- Every filesystem event of a run touches the resolved path of some
matching manifest key. -/
theorem processAll_touches (env : Env) (options : Options) :
    ∀ (files : List String) (fs : FS) (e : Event),
      e ∈ (processAll env options fs files).2.1 →
      ∀ x, Event.touches e = some x →
      ∃ q, q ∈ files ∧ jsEndsWith q ".js" = true ∧ x = env.resolve q := by
  intro files
  induction files with
  | nil =>
    intro fs e he x hx
    simp [processAll_nil] at he
  | cons f rest ih =>
    intro fs e he x hx
    rcases hpf : processFile env options fs f with ⟨fs1, evs1, r⟩
    have hf1 : ∀ e2 ∈ evs1, ∀ y, Event.touches e2 = some y →
        jsEndsWith f ".js" = true ∧ y = env.resolve f := by
      intro e2 he2 y hy
      obtain ⟨hjs, hcase⟩ := processFile_events env options fs f fs1 evs1 r hpf e2 he2
      refine ⟨hjs, ?_⟩
      rcases hcase with hc | ⟨c, hc⟩ | ⟨c, hc⟩
      · rw [hc] at hy
        simp [Event.touches] at hy
        exact hy.symm
      · rw [hc] at hy
        simp [Event.touches] at hy
      · rw [hc] at hy
        simp [Event.touches] at hy
        exact hy.symm
    rcases r with er | u
    · rw [processAll_cons_error env options fs f rest fs1 evs1 er hpf] at he
      obtain ⟨hjs, hy⟩ := hf1 e he x hx
      exact ⟨f, List.mem_cons_self f rest, hjs, hy⟩
    · rcases u
      rw [processAll_cons_ok env options fs f rest fs1 evs1 hpf] at he
      dsimp only at he
      rcases List.mem_append.mp he with he1 | he2
      · obtain ⟨hjs, hy⟩ := hf1 e he1 x hx
        exact ⟨f, List.mem_cons_self f rest, hjs, hy⟩
      · obtain ⟨q, hq, hjq, hxq⟩ := ih fs1 e he2 x hx
        exact ⟨q, List.mem_cons_of_mem f hq, hjq, hxq⟩

/-- Every transformation call of a run receives exactly the registration
options. -/
theorem processAll_transform_opts (env : Env) (options : Options) :
    ∀ (files : List String) (fs : FS) (c : String) (o : Options),
      Event.transform c o ∈ (processAll env options fs files).2.1 → o = options := by
  intro files
  induction files with
  | nil =>
    intro fs c o he
    simp [processAll_nil] at he
  | cons f rest ih =>
    intro fs c o he
    rcases hpf : processFile env options fs f with ⟨fs1, evs1, r⟩
    have hf1 : Event.transform c o ∈ evs1 → o = options := by
      intro he1
      obtain ⟨-, hcase⟩ := processFile_events env options fs f fs1 evs1 r hpf _ he1
      rcases hcase with hc | ⟨c2, hc⟩ | ⟨c2, hc⟩ <;> simp_all
    rcases r with er | u
    · rw [processAll_cons_error env options fs f rest fs1 evs1 er hpf] at he
      exact hf1 he
    · rcases u
      rw [processAll_cons_ok env options fs f rest fs1 evs1 hpf] at he
      dsimp only at he
      rcases List.mem_append.mp he with he1 | he2
      · exact hf1 he1
      · exact ih fs1 c o he2

/-- On a fully successful run, every matching manifest key was read,
transformed from its pre-run content, and rewritten with the transformed
text, which is its final content (given distinct keys whose resolved paths
do not collide). -/
theorem processAll_ok_js_spec (env : Env) (options : Options) (p : String) :
    ∀ (files : List String) (fs fs' : FS) (evs : List Event),
      processAll env options fs files = (fs', evs, Except.ok ()) →
      files.Nodup →
      p ∈ files → jsEndsWith p ".js" = true →
      (∀ q ∈ files, jsEndsWith q ".js" = true → q ≠ p →
        env.resolve q ≠ env.resolve p) →
      ∃ code obf,
        FS.read fs (env.resolve p) = some code ∧
        env.transform code options = Except.ok obf ∧
        FS.read fs' (env.resolve p) = some obf ∧
        Event.read (env.resolve p) ∈ evs ∧
        Event.transform code options ∈ evs ∧
        Event.write (env.resolve p) obf ∈ evs := by
  intro files
  induction files with
  | nil =>
    intro fs fs' evs _ _ hp
    exact absurd hp (List.not_mem_nil p)
  | cons f rest ih =>
    intro fs fs' evs hrun hnd hp hjp hinj
    rcases hpf : processFile env options fs f with ⟨fs1, evs1, r⟩
    rcases r with er | u
    · rw [processAll_cons_error env options fs f rest fs1 evs1 er hpf] at hrun
      simp only [Prod.mk.injEq] at hrun
      exact absurd hrun.2.2 (by simp)
    · rcases u
      rw [processAll_cons_ok env options fs f rest fs1 evs1 hpf] at hrun
      simp only [Prod.mk.injEq] at hrun
      obtain ⟨hfs', hevs, hok⟩ := hrun
      rcases List.mem_cons.mp hp with rfl | hp2
      · obtain ⟨code, obf, hread, htr, hfs1, hevs1⟩ :=
          processFile_ok_js env options fs p fs1 evs1 hjp hpf
        have hrest : ∀ q ∈ rest, jsEndsWith q ".js" = true →
            env.resolve q ≠ env.resolve p := by
          intro q hq hjq
          have hqne : q ≠ p := fun hqp => (List.nodup_cons.mp hnd).1 (hqp ▸ hq)
          exact hinj q (List.mem_cons_of_mem p hq) hjq hqne
        have hframe : FS.read (processAll env options fs1 rest).1 (env.resolve p) =
            FS.read fs1 (env.resolve p) :=
          processAll_fs_frame env options (env.resolve p) rest fs1 hrest
        refine ⟨code, obf, hread, htr, ?_, ?_, ?_, ?_⟩
        · rw [← hfs', hframe, hfs1]
          exact FS.read_write_self fs (env.resolve p) obf
        · rw [← hevs]
          exact List.mem_append_left _ (by rw [hevs1]; simp)
        · rw [← hevs]
          exact List.mem_append_left _ (by rw [hevs1]; simp)
        · rw [← hevs]
          exact List.mem_append_left _ (by rw [hevs1]; simp)
      · rcases hrest : processAll env options fs1 rest with ⟨fs2, evs2, r2⟩
        rw [hrest] at hfs' hevs hok
        dsimp only at hfs' hevs hok
        rw [hok] at hrest
        have hfs1read : FS.read fs1 (env.resolve p) = FS.read fs (env.resolve p) := by
          rcases hj : jsEndsWith f ".js" with _ | _
          · have h3 := (processFile_not_js env options fs f hj).symm.trans hpf
            simp only [Prod.mk.injEq] at h3
            rw [← h3.1]
          · obtain ⟨code2, obf2, _, _, hfs1, _⟩ :=
              processFile_ok_js env options fs f fs1 evs1 hj hpf
            have hfne : f ≠ p := fun hfp =>
              (List.nodup_cons.mp hnd).1 (hfp ▸ hp2)
            have := hinj f (List.mem_cons_self f rest) hj hfne
            rw [hfs1]
            exact FS.read_write_ne fs (env.resolve f) obf2 (env.resolve p)
              (Ne.symm this)
        obtain ⟨code, obf, hread1, htr, hread2, e1, e2, e3⟩ :=
          ih fs1 fs2 evs2 hrest (List.nodup_cons.mp hnd).2 hp2 hjp
            (fun q hq hjq hqp =>
              hinj q (List.mem_cons_of_mem f hq) hjq hqp)
        refine ⟨code, obf, ?_, htr, ?_, ?_, ?_, ?_⟩
        · rw [← hfs1read]; exact hread1
        · rw [← hfs']; exact hread2
        · rw [← hevs]; exact List.mem_append_right _ e1
        · rw [← hevs]; exact List.mem_append_right _ e2
        · rw [← hevs]; exact List.mem_append_right _ e3

/-- On a fully successful run, a read of the resolved path of every matching
key appears in the trace (the task for every matching key was launched). -/
theorem processAll_ok_read_mem (env : Env) (options : Options) :
    ∀ (files : List String) (fs fs' : FS) (evs : List Event),
      processAll env options fs files = (fs', evs, Except.ok ()) →
      ∀ q ∈ files, jsEndsWith q ".js" = true →
      Event.read (env.resolve q) ∈ evs := by
  intro files
  induction files with
  | nil =>
    intro fs fs' evs _ q hq
    exact absurd hq (List.not_mem_nil q)
  | cons f rest ih =>
    intro fs fs' evs hrun q hq hjq
    rcases hpf : processFile env options fs f with ⟨fs1, evs1, r⟩
    rcases r with er | u
    · rw [processAll_cons_error env options fs f rest fs1 evs1 er hpf] at hrun
      simp only [Prod.mk.injEq] at hrun
      exact absurd hrun.2.2 (by simp)
    · rcases u
      rw [processAll_cons_ok env options fs f rest fs1 evs1 hpf] at hrun
      simp only [Prod.mk.injEq] at hrun
      obtain ⟨hfs', hevs, hok⟩ := hrun
      rcases List.mem_cons.mp hq with rfl | hq2
      · obtain ⟨code, obf, _, _, _, hevs1⟩ :=
          processFile_ok_js env options fs q fs1 evs1 hjq hpf
        rw [← hevs]
        exact List.mem_append_left _ (by rw [hevs1]; simp)
      · rcases hrest : processAll env options fs1 rest with ⟨fs2, evs2, r2⟩
        rw [hrest] at hfs' hevs hok
        dsimp only at hfs' hevs hok
        rw [hok] at hrest
        rw [← hevs]
        exact List.mem_append_right _ (ih fs1 fs2 evs2 hrest q hq2 hjq)

/-- Appending key lists: a successful first segment continues with the
second from the filesystem the first produced. -/
theorem processAll_append_ok (env : Env) (options : Options) :
    ∀ (l1 l2 : List String) (fs fs1 : FS) (evs1 : List Event),
      processAll env options fs l1 = (fs1, evs1, Except.ok ()) →
      processAll env options fs (l1 ++ l2) =
        ((processAll env options fs1 l2).1,
         evs1 ++ (processAll env options fs1 l2).2.1,
         (processAll env options fs1 l2).2.2) := by
  intro l1
  induction l1 with
  | nil =>
    intro l2 fs fs1 evs1 h
    rw [processAll_nil] at h
    simp only [Prod.mk.injEq] at h
    rw [List.nil_append, ← h.1, ← h.2.1, List.nil_append]
  | cons f rest ih =>
    intro l2 fs fs1 evs1 h
    rcases hpf : processFile env options fs f with ⟨fsf, evsf, r⟩
    rcases r with er | u
    · rw [processAll_cons_error env options fs f rest fsf evsf er hpf] at h
      simp only [Prod.mk.injEq] at h
      exact absurd h.2.2 (by simp)
    · rcases u
      rw [processAll_cons_ok env options fs f rest fsf evsf hpf] at h
      simp only [Prod.mk.injEq] at h
      obtain ⟨hfs1, hevs1, hok⟩ := h
      rcases hrest : processAll env options fsf rest with ⟨fs2, evs2, r2⟩
      rw [hrest] at hfs1 hevs1 hok
      dsimp only at hfs1 hevs1 hok
      rw [hok] at hrest
      rw [List.cons_append, processAll_cons_ok env options fs f (rest ++ l2) fsf evsf hpf,
        ih l2 fsf fs2 evs2 hrest]
      rw [← hevs1, ← hfs1]
      dsimp only
      rw [List.append_assoc]

/-! Unfolding equations for the registered callback. -/

theorem onEndCallback_failed (env : Env) (options : Options) (result : BuildResult)
    (fs : FS) (he : result.errors ≠ []) :
    onEndCallback env options result fs = (fs, [], Except.ok ()) := by
  have hlen : result.errors.length ≠ 0 := fun h0 => he (List.length_eq_zero.mp h0)
  rw [onEndCallback, if_pos hlen]

theorem onEndCallback_noMetafile (env : Env) (options : Options) (result : BuildResult)
    (fs : FS) (he : result.errors = []) (hm : result.metafile = none) :
    onEndCallback env options result fs =
      (fs, [Event.diag metafileRequiredMsg], Except.ok ()) := by
  simp [onEndCallback, he, hm]

theorem onEndCallback_meta (env : Env) (options : Options) (result : BuildResult)
    (fs : FS) (m : Metafile) (he : result.errors = []) (hm : result.metafile = some m) :
    onEndCallback env options result fs =
      processAll env options fs (m.outputs.map Prod.fst) := by
  simp [onEndCallback, he, hm]

/-- Every transformation call occurring during one callback invocation
receives exactly the registration options. -/
theorem onEndCallback_transform_opts (env : Env) (options : Options)
    (result : BuildResult) (fs : FS) (c : String) (o : Options)
    (hmem : Event.transform c o ∈ (onEndCallback env options result fs).2.1) :
    o = options := by
  rcases herr : result.errors with _ | ⟨e0, es⟩
  · rcases hmeta : result.metafile with _ | m
    · rw [onEndCallback_noMetafile env options result fs herr hmeta] at hmem
      simp at hmem
    · rw [onEndCallback_meta env options result fs m herr hmeta] at hmem
      exact processAll_transform_opts env options (m.outputs.map Prod.fst) fs c o hmem
  · rw [onEndCallback_failed env options result fs (by rw [herr]; simp)] at hmem
    simp at hmem

/-- Two suffixes of the same string are comparable, so a string ending in a
suffix of length at least three that is not itself terminated by `.js`
cannot also end in `.js`. -/
theorem jsEndsWith_excl (p suf : String) (hlen : 3 ≤ suf.data.length)
    (hns : List.isSuffixOf (String.data ".js") suf.data = false)
    (h : jsEndsWith p suf = true) : jsEndsWith p ".js" = false := by
  rcases hb : jsEndsWith p ".js" with _ | _
  · rfl
  · exfalso
    rw [jsEndsWith] at hb h
    have h1 : String.data ".js" <:+ p.data := List.isSuffixOf_iff_suffix.mp hb
    have h2 : suf.data <:+ p.data := List.isSuffixOf_iff_suffix.mp h
    have hlen2 : (String.data ".js").length ≤ suf.data.length := by
      have h3 : (String.data ".js").length = 3 := by decide
      omega
    have h4 := List.isSuffixOf_iff_suffix.mpr
      (List.suffix_of_suffix_length_le h1 h2 hlen2)
    rw [hns] at h4
    exact Bool.false_ne_true h4

/-- C2: with an empty error sequence and no metafile, the hook emits exactly
the one verbatim diagnostic on the error channel, leaves the filesystem
untouched (no read, no write event), and returns successfully. -/
theorem obfuscatorPlugin_missing_metafile_diag (env : Env) (options : Options)
    (result : BuildResult) (fs : FS)
    (he : result.errors = []) (hm : result.metafile = none) :
    (obfuscatorPlugin env options).onEnd result fs =
      (fs, [Event.diag "Metafile is required for the obfuscator plugin to work."],
       Except.ok ()) := by
  show onEndCallback env options result fs = _
  rw [onEndCallback_noMetafile env options result fs he hm]
  rfl

theorem obfuscatorPlugin_missing_metafile_diag_witness :
    (obfuscatorPlugin envW optsW).onEnd resultNoMetaW fsW =
      (fsW, [Event.diag "Metafile is required for the obfuscator plugin to work."],
       Except.ok ()) :=
  obfuscatorPlugin_missing_metafile_diag envW optsW resultNoMetaW fsW rfl rfl

/-- C3: with a non-empty error sequence the hook is a silent no-op: no event
at all (no read, write or diagnostic), the filesystem is unchanged, and the
hook returns successfully — also when the metafile is absent. -/
theorem obfuscatorPlugin_build_failed_noop (env : Env) (options : Options)
    (result : BuildResult) (fs : FS) (he : result.errors ≠ []) :
    (obfuscatorPlugin env options).onEnd result fs = (fs, [], Except.ok ()) := by
  show onEndCallback env options result fs = _
  exact onEndCallback_failed env options result fs he

theorem obfuscatorPlugin_build_failed_noop_witness :
    (obfuscatorPlugin envW optsW).onEnd resultFailedW fsW = (fsW, [], Except.ok ()) :=
  obfuscatorPlugin_build_failed_noop envW optsW resultFailedW fsW (by decide)

/-- C1: when the build outcome has an empty error sequence and a present
metafile (distinct keys, and resolved paths of distinct matching keys not
colliding), for every manifest key ending in `.js` the hook reads the file
at the resolved path, invokes the external transformation on exactly that
content together with the configuration object, and overwrites the same
resolved path with the returned text, which is that path's final content. -/
theorem obfuscatorPlugin_transforms_matching_outputs
    (env : Env) (options : Options) (result : BuildResult) (m : Metafile)
    (fs fs' : FS) (evs : List Event)
    (he : result.errors = [])
    (hm : result.metafile = some m)
    (hnd : (m.outputs.map Prod.fst).Nodup)
    (hinj : ∀ p ∈ m.outputs.map Prod.fst, ∀ q ∈ m.outputs.map Prod.fst,
      jsEndsWith p ".js" = true → jsEndsWith q ".js" = true → q ≠ p →
      env.resolve q ≠ env.resolve p)
    (hrun : (obfuscatorPlugin env options).onEnd result fs = (fs', evs, Except.ok ())) :
    ∀ p ∈ m.outputs.map Prod.fst, jsEndsWith p ".js" = true →
      ∃ code obf,
        FS.read fs (env.resolve p) = some code ∧
        env.transform code options = Except.ok obf ∧
        Event.read (env.resolve p) ∈ evs ∧
        Event.transform code options ∈ evs ∧
        Event.write (env.resolve p) obf ∈ evs ∧
        FS.read fs' (env.resolve p) = some obf := by
  intro p hp hjp
  have hcall : onEndCallback env options result fs = (fs', evs, Except.ok ()) := hrun
  rw [onEndCallback_meta env options result fs m he hm] at hcall
  obtain ⟨code, obf, h1, h2, h3, h4, h5, h6⟩ :=
    processAll_ok_js_spec env options p (m.outputs.map Prod.fst) fs fs' evs hcall hnd
      hp hjp (fun q hq hjq hqp => hinj p hp q hq hjp hjq hqp)
  exact ⟨code, obf, h1, h2, h4, h5, h6, h3⟩

theorem obfuscatorPlugin_transforms_matching_outputs_witness :
    ∃ code obf,
      FS.read fsW (envW.resolve "main.js") = some code ∧
      envW.transform code optsW = Except.ok obf ∧
      Event.read (envW.resolve "main.js") ∈
        [Event.read "/out/main.js", Event.transform "alpha" optsW,
         Event.write "/out/main.js" "alpha"] ∧
      Event.transform code optsW ∈
        [Event.read "/out/main.js", Event.transform "alpha" optsW,
         Event.write "/out/main.js" "alpha"] ∧
      Event.write (envW.resolve "main.js") obf ∈
        [Event.read "/out/main.js", Event.transform "alpha" optsW,
         Event.write "/out/main.js" "alpha"] ∧
      FS.read ⟨[("/out/main.js", "alpha"), ("/out/main.js", "alpha"),
                ("/out/style.css", "bodycss")]⟩ (envW.resolve "main.js") = some obf :=
  obfuscatorPlugin_transforms_matching_outputs envW optsW resultW metaW fsW
    ⟨[("/out/main.js", "alpha"), ("/out/main.js", "alpha"),
      ("/out/style.css", "bodycss")]⟩
    [Event.read "/out/main.js", Event.transform "alpha" optsW,
     Event.write "/out/main.js" "alpha"]
    rfl rfl (by decide) (by decide) rfl "main.js" (by decide) (by decide)

/-- C4: a manifest path not ending in `.js` (whose resolved path no matching
key resolves to) is never read or written during the run — no trace event
touches it — and its content is identical before and after, also when
matching files of the same output set are transformed. -/
theorem obfuscatorPlugin_nonmatching_untouched
    (env : Env) (options : Options) (result : BuildResult) (m : Metafile)
    (fs fs' : FS) (evs : List Event) (st : Except String Unit) (p : String)
    (he : result.errors = [])
    (hm : result.metafile = some m)
    (hp : jsEndsWith p ".js" = false)
    (halias : ∀ q ∈ m.outputs.map Prod.fst, jsEndsWith q ".js" = true →
      env.resolve q ≠ env.resolve p)
    (hrun : (obfuscatorPlugin env options).onEnd result fs = (fs', evs, st)) :
    FS.read fs' (env.resolve p) = FS.read fs (env.resolve p) ∧
    ∀ e ∈ evs, Event.touches e ≠ some (env.resolve p) := by
  have hcall : onEndCallback env options result fs = (fs', evs, st) := hrun
  rw [onEndCallback_meta env options result fs m he hm] at hcall
  constructor
  · have hfr := processAll_fs_frame env options (env.resolve p)
      (m.outputs.map Prod.fst) fs halias
    rw [hcall] at hfr
    exact hfr
  · intro e he2 htouch
    obtain ⟨q, hq, hjq, hxq⟩ := processAll_touches env options
      (m.outputs.map Prod.fst) fs e (by rw [hcall]; exact he2)
      (env.resolve p) htouch
    exact halias q hq hjq hxq.symm

theorem obfuscatorPlugin_nonmatching_untouched_witness :
    FS.read ⟨[("/out/main.js", "alpha"), ("/out/main.js", "alpha"),
              ("/out/style.css", "bodycss")]⟩ (envW.resolve "style.css") =
      FS.read fsW (envW.resolve "style.css") ∧
    ∀ e ∈ [Event.read "/out/main.js", Event.transform "alpha" optsW,
           Event.write "/out/main.js" "alpha"],
      Event.touches e ≠ some (envW.resolve "style.css") :=
  obfuscatorPlugin_nonmatching_untouched envW optsW resultW metaW fsW
    ⟨[("/out/main.js", "alpha"), ("/out/main.js", "alpha"),
      ("/out/style.css", "bodycss")]⟩
    [Event.read "/out/main.js", Event.transform "alpha" optsW,
     Event.write "/out/main.js" "alpha"]
    (Except.ok ()) "style.css" rfl rfl (by decide) (by decide) rfl

/-- C5: when the task of key `p` fails after the tasks of the keys `l1`
before it completed, the failure is not caught: the hook invocation returns
exactly that error, the failing task leaves the filesystem as it found it,
and the final filesystem is the one the completed tasks produced — their
written contents are kept, nothing is rolled back. -/
theorem obfuscatorPlugin_failure_propagates
    (env : Env) (options : Options) (result : BuildResult) (m : Metafile) (fs : FS)
    (l1 : List String) (p : String) (l2 : List String)
    (fs1 fs2 : FS) (evs1 evs2 : List Event) (e : String)
    (he : result.errors = [])
    (hm : result.metafile = some m)
    (hkeys : m.outputs.map Prod.fst = l1 ++ p :: l2)
    (h1 : processAll env options fs l1 = (fs1, evs1, Except.ok ()))
    (hfail : processFile env options fs1 p = (fs2, evs2, Except.error e)) :
    fs2 = fs1 ∧
    (obfuscatorPlugin env options).onEnd result fs =
      (fs1, evs1 ++ evs2, Except.error e) := by
  have hfs2 : fs2 = fs1 := processFile_error_fs env options fs1 p fs2 evs2 e hfail
  refine ⟨hfs2, ?_⟩
  show onEndCallback env options result fs = _
  rw [onEndCallback_meta env options result fs m he hm, hkeys,
    processAll_append_ok env options l1 (p :: l2) fs fs1 evs1 h1,
    processAll_cons_error env options fs1 p l2 fs2 evs2 e hfail]
  dsimp only
  rw [hfs2]

theorem obfuscatorPlugin_failure_propagates_witness :
    (⟨[("/o/a.js", "ob:good"), ("/o/a.js", "good"), ("/o/b.js", "bad")]⟩ : FS) =
      ⟨[("/o/a.js", "ob:good"), ("/o/a.js", "good"), ("/o/b.js", "bad")]⟩ ∧
    (obfuscatorPlugin envPartialW optsW).onEnd resultTwoW fsTwoW =
      (⟨[("/o/a.js", "ob:good"), ("/o/a.js", "good"), ("/o/b.js", "bad")]⟩,
       [Event.read "/o/a.js", Event.transform "good" optsW,
        Event.write "/o/a.js" "ob:good"] ++
         [Event.read "/o/b.js", Event.transform "bad" optsW],
       Except.error "boom") :=
  obfuscatorPlugin_failure_propagates envPartialW optsW resultTwoW metaTwoW fsTwoW
    ["a.js"] "b.js" []
    ⟨[("/o/a.js", "ob:good"), ("/o/a.js", "good"), ("/o/b.js", "bad")]⟩
    ⟨[("/o/a.js", "ob:good"), ("/o/a.js", "good"), ("/o/b.js", "bad")]⟩
    [Event.read "/o/a.js", Event.transform "good" optsW,
     Event.write "/o/a.js" "ob:good"]
    [Event.read "/o/b.js", Event.transform "bad" optsW]
    "boom" rfl rfl rfl rfl rfl

/-- C6: the configuration object is opaque to the hook and forwarded
verbatim: every transformation call of a run receives exactly the
registration options, hence every key-value pair of the options reaches the
call unmodified. -/
theorem obfuscatorPlugin_options_forwarded
    (env : Env) (options : Options) (result : BuildResult) (fs fs' : FS)
    (evs : List Event) (st : Except String Unit)
    (hrun : (obfuscatorPlugin env options).onEnd result fs = (fs', evs, st)) :
    ∀ c o, Event.transform c o ∈ evs →
      o = options ∧ ∀ kv, kv ∈ o.entries ↔ kv ∈ options.entries := by
  intro c o hmem
  have hcall : onEndCallback env options result fs = (fs', evs, st) := hrun
  have ho : o = options :=
    onEndCallback_transform_opts env options result fs c o (by rw [hcall]; exact hmem)
  exact ⟨ho, by rw [ho]; exact fun kv => Iff.rfl⟩

theorem obfuscatorPlugin_options_forwarded_witness :
    optsW = optsW ∧ ∀ kv, kv ∈ optsW.entries ↔ kv ∈ optsW.entries :=
  obfuscatorPlugin_options_forwarded envW optsW resultW fsW
    ⟨[("/out/main.js", "alpha"), ("/out/main.js", "alpha"),
      ("/out/style.css", "bodycss")]⟩
    [Event.read "/out/main.js", Event.transform "alpha" optsW,
     Event.write "/out/main.js" "alpha"]
    (Except.ok ()) rfl "alpha" optsW (by decide)

/-- C7: a matching output file whose content is the empty string still holds
the empty string after a successful run, given that the external
transformation maps empty content to empty content (the behavior the spec
and the repository's test assert for the external library). -/
theorem obfuscatorPlugin_empty_content_stays_empty
    (env : Env) (options : Options) (result : BuildResult) (m : Metafile)
    (fs fs' : FS) (evs : List Event) (p : String)
    (he : result.errors = [])
    (hm : result.metafile = some m)
    (hnd : (m.outputs.map Prod.fst).Nodup)
    (hinj : ∀ q ∈ m.outputs.map Prod.fst, jsEndsWith q ".js" = true → q ≠ p →
      env.resolve q ≠ env.resolve p)
    (hp : p ∈ m.outputs.map Prod.fst)
    (hjp : jsEndsWith p ".js" = true)
    (hcontent : FS.read fs (env.resolve p) = some "")
    (hempty : env.transform "" options = Except.ok "")
    (hrun : (obfuscatorPlugin env options).onEnd result fs = (fs', evs, Except.ok ())) :
    FS.read fs' (env.resolve p) = some "" := by
  have hcall : onEndCallback env options result fs = (fs', evs, Except.ok ()) := hrun
  rw [onEndCallback_meta env options result fs m he hm] at hcall
  obtain ⟨code, obf, h1, h2, h3, -, -, -⟩ :=
    processAll_ok_js_spec env options p (m.outputs.map Prod.fst) fs fs' evs hcall
      hnd hp hjp hinj
  have hc : code = "" := Option.some.inj (h1.symm.trans hcontent)
  rw [hc] at h2
  have ho : obf = "" := Except.ok.inj (h2.symm.trans hempty)
  rw [h3, ho]

theorem obfuscatorPlugin_empty_content_stays_empty_witness :
    FS.read ⟨[("/out/empty.js", ""), ("/out/empty.js", "")]⟩
      (envW.resolve "empty.js") = some "" :=
  obfuscatorPlugin_empty_content_stays_empty envW optsW resultEmptyW metaEmptyW
    fsEmptyW ⟨[("/out/empty.js", ""), ("/out/empty.js", "")]⟩
    [Event.read "/out/empty.js", Event.transform "" optsW,
     Event.write "/out/empty.js" ""]
    "empty.js" rfl rfl (by decide) (by decide) (by decide) (by decide) rfl rfl rfl

/-- C8: the hook is stateless across invocations: the only state an
invocation can read is the filesystem, so after any two prior invocation
histories that leave the same file contents, invoking the hook on the same
build outcome, options and transformation function produces identical
events (diagnostics included), identical status, and identical final file
contents — independent of the prior invocations. -/
theorem obfuscatorPlugin_stateless
    (env : Env) (options : Options) (fs0 fs0' : FS)
    (h1 h2 : List BuildResult) (r : BuildResult)
    (hfs : (runBuilds (obfuscatorPlugin env options) fs0 h1).1 =
      (runBuilds (obfuscatorPlugin env options) fs0' h2).1) :
    (obfuscatorPlugin env options).onEnd r
        ((runBuilds (obfuscatorPlugin env options) fs0 h1).1) =
      (obfuscatorPlugin env options).onEnd r
        ((runBuilds (obfuscatorPlugin env options) fs0' h2).1) := by
  rw [hfs]

theorem obfuscatorPlugin_stateless_witness :
    (obfuscatorPlugin envW optsW).onEnd resultW
        ((runBuilds (obfuscatorPlugin envW optsW) fsW [resultNoMetaW]).1) =
      (obfuscatorPlugin envW optsW).onEnd resultW
        ((runBuilds (obfuscatorPlugin envW optsW) fsW [resultFailedW]).1) :=
  obfuscatorPlugin_stateless envW optsW fsW fsW [resultNoMetaW] [resultFailedW]
    resultW rfl

/-- C9: calling the plugin factory with no argument behaves exactly like
calling it with the empty options object (the TS default parameter
substitutes `{}`), and every transformation call the resulting hook makes
receives the empty configuration object. -/
theorem obfuscatorPlugin_default_options_empty (env : Env) :
    obfuscatorPluginNoOpts env = obfuscatorPlugin env Options.empty ∧
    ∀ result fs c o,
      Event.transform c o ∈ ((obfuscatorPluginNoOpts env).onEnd result fs).2.1 →
      o = Options.empty := by
  refine ⟨rfl, ?_⟩
  intro result fs c o hmem
  exact onEndCallback_transform_opts env Options.empty result fs c o hmem

theorem obfuscatorPlugin_default_options_empty_witness :
    obfuscatorPluginNoOpts envW = obfuscatorPlugin envW Options.empty ∧
    Options.empty = Options.empty :=
  ⟨(obfuscatorPlugin_default_options_empty envW).1,
   (obfuscatorPlugin_default_options_empty envW).2 resultW fsW "alpha"
     Options.empty (by decide)⟩

/-- C10: the selection predicate is the literal case-sensitive suffix `.js`
on the full manifest path: a path ending in `.mjs`, `.cjs`, `.JS`, `.ts` or
`.json` does not end in `.js`, is never read or written (no event touches
its resolved path, given no matching key resolves there), and keeps its
content; while on a successful run every key whose final three characters
are exactly `.js` is selected — its resolved path is read. -/
theorem obfuscatorPlugin_suffix_predicate
    (env : Env) (options : Options) (result : BuildResult) (m : Metafile)
    (fs fs' : FS) (evs : List Event) (st : Except String Unit) (p : String)
    (he : result.errors = [])
    (hm : result.metafile = some m)
    (hsuf : jsEndsWith p ".mjs" = true ∨ jsEndsWith p ".cjs" = true ∨
      jsEndsWith p ".JS" = true ∨ jsEndsWith p ".ts" = true ∨
      jsEndsWith p ".json" = true)
    (halias : ∀ q ∈ m.outputs.map Prod.fst, jsEndsWith q ".js" = true →
      env.resolve q ≠ env.resolve p)
    (hrun : (obfuscatorPlugin env options).onEnd result fs = (fs', evs, st)) :
    jsEndsWith p ".js" = false ∧
    FS.read fs' (env.resolve p) = FS.read fs (env.resolve p) ∧
    (∀ e ∈ evs, Event.touches e ≠ some (env.resolve p)) ∧
    (st = Except.ok () →
      ∀ q ∈ m.outputs.map Prod.fst, jsEndsWith q ".js" = true →
        Event.read (env.resolve q) ∈ evs) := by
  have hnj : jsEndsWith p ".js" = false := by
    rcases hsuf with h | h | h | h | h
    · exact jsEndsWith_excl p ".mjs" (by decide) (by decide) h
    · exact jsEndsWith_excl p ".cjs" (by decide) (by decide) h
    · exact jsEndsWith_excl p ".JS" (by decide) (by decide) h
    · exact jsEndsWith_excl p ".ts" (by decide) (by decide) h
    · exact jsEndsWith_excl p ".json" (by decide) (by decide) h
  have hcall : onEndCallback env options result fs = (fs', evs, st) := hrun
  rw [onEndCallback_meta env options result fs m he hm] at hcall
  refine ⟨hnj, ?_, ?_, ?_⟩
  · have hfr := processAll_fs_frame env options (env.resolve p)
      (m.outputs.map Prod.fst) fs halias
    rw [hcall] at hfr
    exact hfr
  · intro e he2 htouch
    obtain ⟨q, hq, hjq, hxq⟩ := processAll_touches env options
      (m.outputs.map Prod.fst) fs e (by rw [hcall]; exact he2)
      (env.resolve p) htouch
    exact halias q hq hjq hxq.symm
  · intro hst q hq hjq
    rw [hst] at hcall
    exact processAll_ok_read_mem env options (m.outputs.map Prod.fst) fs fs' evs
      hcall q hq hjq

theorem obfuscatorPlugin_suffix_predicate_witness :
    jsEndsWith "a.mjs" ".js" = false ∧
    FS.read ⟨[("/out/b.js", "code"), ("/out/a.mjs", "modcode"),
              ("/out/b.js", "code")]⟩ (envW.resolve "a.mjs") =
      FS.read fsSufW (envW.resolve "a.mjs") ∧
    (∀ e ∈ [Event.read "/out/b.js", Event.transform "code" optsW,
            Event.write "/out/b.js" "code"],
      Event.touches e ≠ some (envW.resolve "a.mjs")) ∧
    ((Except.ok () : Except String Unit) = Except.ok () →
      ∀ q ∈ metaSufW.outputs.map Prod.fst, jsEndsWith q ".js" = true →
        Event.read (envW.resolve q) ∈
          [Event.read "/out/b.js", Event.transform "code" optsW,
           Event.write "/out/b.js" "code"]) :=
  obfuscatorPlugin_suffix_predicate envW optsW resultSufW metaSufW fsSufW
    ⟨[("/out/b.js", "code"), ("/out/a.mjs", "modcode"), ("/out/b.js", "code")]⟩
    [Event.read "/out/b.js", Event.transform "code" optsW,
     Event.write "/out/b.js" "code"]
    (Except.ok ()) "a.mjs" rfl rfl (Or.inl (by decide)) (by decide) rfl

end EsbuildObfuscator
